import Mathlib

/-!
# A verification model of the sort-tabs-advanced background script

This file shallow-embeds the tab-sorting engine of `src/background.js`:
the comparator library, the stable sort of each partition, the
LCS-based diff of the identifier sequences, and the move-emitting loop
of `sortTabsInternal`, together with the thin orchestration layer
(`sortTabs`, `sortTabsComparatorName`, `settingsSortAutoHandler`).

Host primitives that the script consumes but does not define
(`Array.prototype.sort`, the `differ` diff library, the `URL`
constructor, the `console` object) are modelled from the specification:
the sort as a stable comparison sort, the differ as a minimal edit
script derived from a longest common subsequence, `URL` as a small
`scheme://host` parser, and `console` as the standard method table
(which has `warn` but no `warning`).

JavaScript exceptions are modelled with `Except`; JavaScript numbers
that can be `-1` sentinels (`indexOf`) are modelled as `Int`.
-/

/-- A JavaScript runtime error surfaced by the embedded code. -/
inductive JsErr where
  | typeError (msg : String)
deriving DecidableEq

deriving instance DecidableEq for Except

/-- A browser tab record, as consumed by the sorting engine
(`id`, `url`, `title`, `lastAccessed`, `pinned`, `index`). -/
structure Tab where
  id : Nat
  url : String
  title : String
  lastAccessed : Int
  pinned : Bool
  index : Nat
deriving DecidableEq

/-- Lexicographic strict comparison of character sequences by code
point (kernel-computable, unlike the iterator-based order on
`String`). -/
def charListLt : List Char → List Char → Bool
  | [], [] => false
  | [], _ :: _ => true
  | _ :: _, [] => false
  | c :: cs, d :: ds =>
      if c.toNat < d.toNat then true
      else if d.toNat < c.toNat then false
      else charListLt cs ds

/-- Strict lexicographic order on strings. -/
def strLt (s t : String) : Bool := charListLt s.toList t.toList

/-- Model of `String.prototype.localeCompare`: a pure total comparison
returning -1/0/1 by the lexicographic order on strings. -/
def jsCompare (s t : String) : Int :=
  if strLt s t then -1 else if strLt t s then 1 else 0

/-- The object produced by the host `URL` constructor, restricted to the
single property the script reads. -/
structure UrlObj where
  hostname : String
deriving DecidableEq

/-- Modelled from the spec: successful parses of the host `URL`
constructor have the shape `scheme://host...`; the hostname is the
authority up to the first `/`, `:`, `?` or `#`. -/
def parseURL (s : String) : Option UrlObj :=
  let cs := s.toList
  let scheme := cs.takeWhile (fun c => c != ':')
  let rest := cs.dropWhile (fun c => c != ':')
  match scheme, rest with
  | [], _ => none
  | _ :: _, ':' :: '/' :: '/' :: r =>
      let host := r.takeWhile (fun c => !(c == '/' || c == ':' || c == '?' || c == '#'))
      if host.isEmpty then none else some ⟨String.mk host⟩
  | _, _ => none

/-- Modelled from the spec: `new URL(s)` throws a `TypeError` when the
string cannot be parsed as a URL. -/
def parseURLE (s : String) : Except JsErr UrlObj :=
  match parseURL s with
  | some u => Except.ok u
  | none => Except.error (JsErr.typeError ("Invalid URL: " ++ s))

/-- `hostname.split(".")`, on the character list of the hostname. -/
def splitDots : List Char → List (List Char)
  | [] => [[]]
  | c :: cs =>
      if c = '.' then [] :: splitDots cs
      else
        match splitDots cs with
        | [] => [[c]]
        | p :: ps => (c :: p) :: ps

/-- `.join(".")` on a list of labels. -/
def joinDots : List (List Char) → List Char
  | [] => []
  | [p] => p
  | p :: ps => p ++ '.' :: joinDots ps

/-- `hostname.split(".").slice(-2).join(".")`: the last two dot-separated
labels of a hostname (the whole hostname when it has fewer than two). -/
def lastTwoLabels (host : String) : String :=
  let parts := splitDots host.toList
  String.mk (joinDots (parts.drop (parts.length - 2)))

/-- The type of the script's comparator functions: two tab records to a
number, possibly throwing (for example from `new URL`). -/
abbrev CmpE := Tab → Tab → Except JsErr Int

/-- `compareByUrlAsc` from background.js lines 4-9. -/
def compareByUrlAsc : CmpE := fun a b => do
  let url1 ← parseURLE a.url
  let url2 ← parseURLE b.url
  pure (jsCompare url1.hostname url2.hostname)

/-- `compareByUrlDesc` from background.js lines 11-16. -/
def compareByUrlDesc : CmpE := fun a b => do
  let url1 ← parseURLE a.url
  let url2 ← parseURLE b.url
  pure (jsCompare url2.hostname url1.hostname)

/-- `compareByDomainAsc` from background.js lines 18-26. -/
def compareByDomainAsc : CmpE := fun a b => do
  let url1 ← parseURLE a.url
  let url2 ← parseURLE b.url
  pure (jsCompare (lastTwoLabels url1.hostname) (lastTwoLabels url2.hostname))

/-- `compareByDomainDesc` from background.js lines 28-36. -/
def compareByDomainDesc : CmpE := fun a b => do
  let url1 ← parseURLE a.url
  let url2 ← parseURLE b.url
  pure (jsCompare (lastTwoLabels url2.hostname) (lastTwoLabels url1.hostname))

/-- `compareByTitleAsc` from background.js lines 38-40. -/
def compareByTitleAsc : CmpE := fun a b =>
  pure (jsCompare a.title b.title)

/-- `compareByTitleDesc` from background.js lines 42-44. -/
def compareByTitleDesc : CmpE := fun a b =>
  pure (jsCompare b.title a.title)

/-- `compareByLastAccessAsc` from background.js lines 46-54. -/
def compareByLastAccessAsc : CmpE := fun a b =>
  pure (if a.lastAccessed < b.lastAccessed then -1
        else if b.lastAccessed < a.lastAccessed then 1 else 0)

/-- `compareByLastAccessDesc` from background.js lines 56-64. -/
def compareByLastAccessDesc : CmpE := fun a b =>
  pure (if b.lastAccessed < a.lastAccessed then -1
        else if a.lastAccessed < b.lastAccessed then 1 else 0)

/-- An infallible comparator, lifted into the fallible comparator type. -/
def liftCmp (c : Tab → Tab → Int) : CmpE := fun a b => Except.ok (c a b)

/-- The ordering relation realised by `Array.prototype.sort(c)`:
`a` is placed no later than `b` exactly when `c a b ≤ 0`. -/
def sortLE (c : Tab → Tab → Int) (a b : Tab) : Prop := c a b ≤ 0

instance (c : Tab → Tab → Int) : DecidableRel (sortLE c) :=
  fun a b => id (inferInstanceAs (Decidable (c a b ≤ 0)))

/-- One insertion step of the stable comparison sort, with the
comparator's exceptions propagated (a thrown comparator aborts the
whole `sort` call, as in JavaScript). -/
def orderedInsertE (c : CmpE) (a : Tab) : List Tab → Except JsErr (List Tab)
  | [] => Except.ok [a]
  | b :: l => do
      let v ← c a b
      if v ≤ 0 then
        pure (a :: b :: l)
      else do
        let r ← orderedInsertE c a l
        pure (b :: r)

/-- Model of `Array.prototype.sort(comparator)`: a stable comparison
sort (insertion sort) in which every comparator call may throw. -/
def insertionSortE (c : CmpE) : List Tab → Except JsErr (List Tab)
  | [] => Except.ok []
  | b :: l => do
      let r ← insertionSortE c l
      orderedInsertE c b r

/-- One component of the diff script produced by the `differ` library:
a run of values that is common, removed or added. -/
structure DiffPart where
  added : Bool
  removed : Bool
  value : List Nat
deriving DecidableEq

/-- Fueled longest-common-subsequence computation (fuel makes the
recursion structural, so concrete instances reduce in the kernel). -/
def lcsF : Nat → List Nat → List Nat → List Nat
  | 0, _, _ => []
  | _, [], _ => []
  | _ + 1, _ :: _, [] => []
  | fuel + 1, x :: xs, y :: ys =>
      if x = y then x :: lcsF fuel xs ys
      else
        let s1 := lcsF fuel xs (y :: ys)
        let s2 := lcsF fuel (x :: xs) ys
        if s1.length < s2.length then s2 else s1

/-- A longest common subsequence of two sequences. -/
def lcs (b a : List Nat) : List Nat := lcsF (b.length + a.length) b a

/-- A removed run, omitted when empty. -/
def removedPart (v : List Nat) : List DiffPart :=
  if v.isEmpty then [] else [⟨false, true, v⟩]

/-- An added run, omitted when empty. -/
def addedPart (v : List Nat) : List DiffPart :=
  if v.isEmpty then [] else [⟨true, false, v⟩]

/-- The canonical edit script determined by a common subsequence: before
each common element, the removed elements of `b` and the added elements
of `a` that precede it; trailing removed/added runs at the end. -/
def lcsDiff : List Nat → List Nat → List Nat → List DiffPart
  | b, a, [] => removedPart b ++ addedPart a
  | b, a, x :: l =>
      let bPre := b.takeWhile (fun y => y != x)
      let bSuf := (b.dropWhile (fun y => y != x)).tail
      let aPre := a.takeWhile (fun y => y != x)
      let aSuf := (a.dropWhile (fun y => y != x)).tail
      removedPart bPre ++ addedPart aPre ++ ⟨false, false, [x]⟩ :: lcsDiff bSuf aSuf l

/-- Modelled from the spec: `differ.diff(beforeIds, afterIds)`, a
minimal insert/delete edit script derived from a longest common
subsequence of the two identifier sequences. -/
def differDiff (beforeIds afterIds : List Nat) : List DiffPart :=
  lcsDiff beforeIds afterIds (lcs beforeIds afterIds)

/-- `Array.prototype.indexOf`: position of the first occurrence,
`-1` when absent. -/
def jsIndexOf : List Nat → Nat → Int
  | [], _ => -1
  | y :: ys, x =>
      if y = x then 0
      else
        let r := jsIndexOf ys x
        if r < 0 then -1 else r + 1

/-- Read `l[i]` for an index the caller has bounds-checked. -/
def jsAt (l : List Nat) (i : Int) : Nat := l.getD i.toNat 0

/-- `Array.prototype.splice(start, 0, ...items)`: insert `items` at
`start`, clamped to the array bounds (negative counts from the end). -/
def jsSplice (l : List Nat) (i : Int) (items : List Nat) : List Nat :=
  let k : Nat := if i < 0 then ((l.length : Int) + i).toNat else min i.toNat l.length
  l.take k ++ items ++ l.drop k

/-- One `browser.tabs.move` request: a block of tab ids and the
destination index passed to the host. -/
structure MoveOp where
  movingIds : List Nat
  index : Int
deriving DecidableEq

/-- The body of the per-run work of `sortTabsInternal`
(background.js lines 201-215): compute the destination index of the
added run `movingIds` and update the working copy `cur`. Returns the
index before the partition offset is added, and the new working copy. -/
def runStep (afterIds : List Nat) (blen : Nat) (cur : List Nat) (movingIds : List Nat) :
    Int × List Nat :=
  let lastMovingId := movingIds.getLastD 0
  let nearestFollowingIndex := jsIndexOf afterIds lastMovingId + 1
  let n0 : Int :=
    if nearestFollowingIndex < (afterIds.length : Int) then
      jsIndexOf cur (jsAt afterIds nearestFollowingIndex)
    else -1
  let n1 : Int := if n0 < 0 then (blen : Int) else n0
  let oldIndex := jsIndexOf cur (movingIds.headD 0)
  let newIndex := if oldIndex < n1 then n1 - 1 else n1
  let removed := cur.filter (fun id => !(movingIds.contains id))
  (newIndex, jsSplice removed newIndex movingIds)

/-- The loop of `sortTabsInternal` (background.js lines 199-216): walk
the diff script, skip parts that are not added runs, and for each added
run emit a MoveOp at `newIndex + offset` and update the working copy. -/
def applyParts (afterIds : List Nat) (blen offset : Nat) :
    List DiffPart → List Nat → List MoveOp × List Nat
  | [], cur => ([], cur)
  | p :: ps, cur =>
      if p.added then
        let s := runStep afterIds blen cur p.value
        let rest := applyParts afterIds blen offset ps s.2
        (⟨p.value, s.1 + (offset : Int)⟩ :: rest.1, rest.2)
      else applyParts afterIds blen offset ps cur

/-- `sortTabsInternal` (background.js lines 189-217), kept together with
its final working copy `currentIds` so that the reached order can be
stated. The comparator runs inside the sort, before any move is
emitted; a comparator exception therefore aborts the partition's pass
with no MoveOp. -/
def sortTabsInternalCore (tabs : List Tab) (comparator : CmpE) :
    Except JsErr (List MoveOp × List Nat) :=
  match tabs with
  | [] => Except.ok ([], [])
  | t0 :: _ => do
      let sorted ← insertionSortE comparator tabs
      let offset := t0.index
      let beforeIds := tabs.map Tab.id
      let afterIds := sorted.map Tab.id
      pure (applyParts afterIds beforeIds.length offset (differDiff beforeIds afterIds) beforeIds)

/-- The emitted move batch of `sortTabsInternal`. -/
def sortTabsInternal (tabs : List Tab) (comparator : CmpE) : Except JsErr (List MoveOp) :=
  (sortTabsInternalCore tabs comparator).map Prod.fst

/-- The persisted settings (background.js lines 124-131). -/
structure Settings where
  sortAuto : Bool
  sortPinned : Bool
  lastComparator : Option String
deriving DecidableEq

/-- Modelled from the spec: `Array.prototype.sort(undefined)` falls back
to comparing the elements' string conversions; every plain tab object
converts to the same string, so all elements compare equal. -/
def jsDefaultTabCompare : CmpE := fun _ _ => Except.ok 0

/-- `sortTabs` (background.js lines 164-181): partition by `pinned`,
sort the pinned partition only when the setting asks for it, then the
normal partition. Returns the concatenated move batch. -/
def sortTabs (comparator : Option CmpE) (settings : Settings) (tabs : List Tab) :
    Except JsErr (List MoveOp) := do
  let pinnedTabs := tabs.filter (fun t => t.pinned)
  let normalTabs := tabs.filter (fun t => !t.pinned)
  let c := comparator.getD jsDefaultTabCompare
  let pinnedOps ← if settings.sortPinned then sortTabsInternal pinnedTabs c else pure []
  let normalOps ← sortTabsInternal normalTabs c
  pure (pinnedOps ++ normalOps)

/-- `menuIdToComparator` (background.js lines 67-76). -/
def menuIdToComparator (menuId : String) : Option CmpE :=
  if menuId = "sort-by-url-asc" then some compareByUrlAsc
  else if menuId = "sort-by-url-desc" then some compareByUrlDesc
  else if menuId = "sort-by-domain-asc" then some compareByDomainAsc
  else if menuId = "sort-by-domain-desc" then some compareByDomainDesc
  else if menuId = "sort-by-last-access-asc" then some compareByLastAccessAsc
  else if menuId = "sort-by-last-access-desc" then some compareByLastAccessDesc
  else if menuId = "sort-by-title-asc" then some compareByTitleAsc
  else if menuId = "sort-by-title-desc" then some compareByTitleDesc
  else none

/-- Modelled from the spec: the methods the host `console` object
provides. There is `warn`, but no `warning`. -/
def consoleMethods : List String :=
  ["assert", "clear", "count", "debug", "dir", "error", "group",
   "info", "log", "table", "time", "trace", "warn"]

/-- Calling `console.m(msg)`: a missing member is `undefined`, and
calling it throws a `TypeError`; otherwise the message is logged. -/
def consoleCall (method msg : String) : Except JsErr (List String) :=
  if consoleMethods.contains method then Except.ok [msg]
  else Except.error (JsErr.typeError ("console." ++ method ++ " is not a function"))

/-- The observable outcome of one triggered pass: whether `sortTabs`
was invoked, the diagnostics successfully logged, and the move batch or
the error the pass ended with. -/
structure PassReport where
  ranSort : Bool
  warnings : List String
  result : Except JsErr (List MoveOp)
deriving DecidableEq

/-- The warning text of background.js lines 146-148. -/
def autoSortWarning : String :=
  "Tried to automatically sort tabs but couldn't find the last-comparator. Doing nothing instead."

/-- `settingsSortAutoHandler` (background.js lines 138-151): look up the
stored last comparator; when found run `sortTabs`, otherwise call
`console.warning(...)` - a member the console does not have. -/
def settingsSortAutoHandler (settings : Settings) (tabs : List Tab) : PassReport :=
  match settings.lastComparator.bind menuIdToComparator with
  | some comparator =>
      { ranSort := true, warnings := [], result := sortTabs (some comparator) settings tabs }
  | none =>
      match consoleCall "warning" autoSortWarning with
      | Except.ok logged => { ranSort := false, warnings := logged, result := Except.ok [] }
      | Except.error e => { ranSort := false, warnings := [], result := Except.error e }

/-- `sortTabsComparatorName` (background.js lines 250-252): no guard,
the looked-up comparator (possibly `undefined`) is passed straight to
`sortTabs`. -/
def sortTabsComparatorName (compName : String) (settings : Settings) (tabs : List Tab) :
    PassReport :=
  { ranSort := true, warnings := [], result := sortTabs (menuIdToComparator compName) settings tabs }

/-- The destination index of one added run, written from the spec's
own words (§4.2 steps 4b-4d): the anchor is the element immediately
following the run's last id in `afterIds`; the destination is the
anchor's current position in the live working copy, or the length of
the original sequence when the run is at the end; it is decremented
exactly when the run's first element currently precedes it. -/
def specDestinationIndex (afterIds : List Nat) (blen : Nat) (cur : List Nat) (run : List Nat) :
    Int :=
  let lastId := run.getLastD 0
  let anchor : Option Nat := afterIds.get? ((jsIndexOf afterIds lastId).toNat + 1)
  let d0 : Int :=
    match anchor with
    | some x => jsIndexOf cur x
    | none => (blen : Int)
  if jsIndexOf cur (run.headD 0) < d0 then d0 - 1 else d0

/-- The key function of the ascending title comparator, as a pure
function (`compareByTitleAsc` is its lift into the fallible type). -/
def byTitleAsc : Tab → Tab → Int := fun a b => jsCompare a.title b.title

/-- Whether an `Except` computation ended in an error. -/
def isErr {ε α : Type} : Except ε α → Bool
  | Except.error _ => true
  | Except.ok _ => false

/-- The key function of the descending title comparator. -/
def byTitleDesc : Tab → Tab → Int := fun a b => jsCompare b.title a.title

/-- A normal (unpinned) tab record with a well-formed URL. -/
def sampleTab (i idx : Nat) (ttl : String) : Tab :=
  { id := i, url := "https://example.com/", title := ttl,
    lastAccessed := 0, pinned := false, index := idx }

/-- Five tabs whose title order is `[2, 3, 1, 0, 4]`: the smallest
partition on which one pass of the engine fails to reach the target. -/
def c1Tabs : List Tab :=
  [sampleTab 0 0 "d", sampleTab 1 1 "c", sampleTab 2 2 "a",
   sampleTab 3 3 "b", sampleTab 4 4 "e"]

/-- The live strip after the first pass on `c1Tabs`: order `[2, 3, 4, 1, 0]`. -/
def c4TabsSecond : List Tab :=
  [sampleTab 2 0 "a", sampleTab 3 1 "b", sampleTab 4 2 "e",
   sampleTab 1 3 "c", sampleTab 0 4 "d"]

/-- Three tabs already in ascending title order. -/
def c4SortedTabs : List Tab :=
  [sampleTab 0 0 "a", sampleTab 1 1 "b", sampleTab 2 2 "c"]

/-- A tab whose url does not parse. -/
def badTab : Tab :=
  { id := 9, url := "not a url", title := "t", lastAccessed := 0,
    pinned := false, index := 0 }

/-- A tab whose url parses. -/
def goodTab : Tab :=
  { id := 3, url := "https://example.com/", title := "g", lastAccessed := 0,
    pinned := false, index := 1 }

/-- A pinned tab at strip index 0. -/
def pinTab : Tab :=
  { id := 10, url := "https://p.example/", title := "z", lastAccessed := 0,
    pinned := true, index := 0 }

/-- One pinned tab followed by two unpinned tabs in reverse title order. -/
def c3Tabs : List Tab :=
  [pinTab, sampleTab 1 1 "b", sampleTab 2 2 "a"]

/-- Three distinct tabs with identical titles. -/
def c8EqTabs : List Tab :=
  [sampleTab 5 0 "same", sampleTab 6 1 "same", sampleTab 7 2 "same"]

/-- The spec's domain-comparator example records. -/
def c9TabA : Tab :=
  { id := 1, url := "https://a.example.co.uk/", title := "A", lastAccessed := 0,
    pinned := false, index := 0 }

def c9TabB : Tab :=
  { id := 2, url := "https://b.example.com/", title := "B", lastAccessed := 0,
    pinned := false, index := 1 }

/-- Two tabs agreeing on the title but on nothing else: the urls (one
malformed), last-access times, ids and indices all differ. -/
def c10Tab1 : Tab :=
  { id := 1, url := "https://x.example/", title := "s", lastAccessed := 5,
    pinned := false, index := 0 }

def c10Tab2 : Tab :=
  { id := 2, url := "not a url", title := "s", lastAccessed := 99,
    pinned := false, index := 1 }

/-- Two tabs agreeing on the last-access time but on nothing else: the
urls (one malformed), titles, ids and indices all differ. -/
def c10Tab3 : Tab :=
  { id := 3, url := "https://y.example/", title := "t1", lastAccessed := 7,
    pinned := false, index := 2 }

def c10Tab4 : Tab :=
  { id := 4, url := "also not a url", title := "zzz", lastAccessed := 7,
    pinned := false, index := 3 }

/-- The pure key functions of the remaining infallible comparators. -/
def byLastAccessAsc : Tab → Tab → Int := fun a b =>
  if a.lastAccessed < b.lastAccessed then -1
  else if b.lastAccessed < a.lastAccessed then 1 else 0

def byLastAccessDesc : Tab → Tab → Int := fun a b =>
  if b.lastAccessed < a.lastAccessed then -1
  else if a.lastAccessed < b.lastAccessed then 1 else 0

/-! ## Facts about the JavaScript helper functions -/

theorem jsIndexOf_ge (l : List Nat) (x : Nat) : -1 ≤ jsIndexOf l x := by
  induction l with
  | nil => simp [jsIndexOf]
  | cons y ys ih =>
      simp only [jsIndexOf]
      split
      · omega
      · split <;> omega

theorem jsIndexOf_mem_range (l : List Nat) (x : Nat) (h : x ∈ l) :
    0 ≤ jsIndexOf l x ∧ jsIndexOf l x < (l.length : Int) := by
  induction l with
  | nil => cases h
  | cons y ys ih =>
      by_cases hy : y = x
      · simp only [jsIndexOf, if_pos hy, List.length_cons]
        omega
      · have hx : x ∈ ys := by
          rcases List.mem_cons.mp h with h1 | h2
          · exact absurd h1.symm hy
          · exact h2
        obtain ⟨h0, hlt⟩ := ih hx
        simp only [jsIndexOf, if_neg hy, List.length_cons]
        split <;> omega

theorem jsAt_mem (l : List Nat) (i : Int) (h0 : 0 ≤ i) (h : i < (l.length : Int)) :
    jsAt l i ∈ l := by
  have hn : i.toNat < l.length := by omega
  have h1 : jsAt l i = l[i.toNat] := by
    simp [jsAt, List.getElem?_eq_getElem hn]
  rw [h1]
  exact List.getElem_mem hn

theorem headD_mem {l : List Nat} (h : l ≠ []) : l.headD 0 ∈ l := by
  cases l with
  | nil => exact absurd rfl h
  | cons y ys => simp

theorem jsSplice_perm (l : List Nat) (i : Int) (items : List Nat) :
    List.Perm (jsSplice l i items) (items ++ l) := by
  simp only [jsSplice]
  have h1 := List.perm_append_comm_assoc (l.take (if i < 0 then ((l.length : Int) + i).toNat else min i.toNat l.length)) items (l.drop (if i < 0 then ((l.length : Int) + i).toNat else min i.toNat l.length))
  simpa [List.take_append_drop] using h1

theorem filter_mem_perm (cur run : List Nat) (hc : cur.Nodup) (hr : run.Nodup)
    (hsub : ∀ x ∈ run, x ∈ cur) :
    List.Perm (cur.filter (fun id => run.contains id)) run := by
  refine (List.perm_ext_iff_of_nodup (hc.filter _) hr).mpr ?_
  intro a
  simp only [List.mem_filter]
  constructor
  · rintro ⟨_, h2⟩
    simpa using h2
  · intro ha
    exact ⟨hsub a ha, by simpa using ha⟩

@[simp]
theorem jsBind_ok {ε α β : Type} (x : α) (f : α → Except ε β) :
    (Except.ok x >>= f) = f x := rfl

@[simp]
theorem jsBind_error {ε α β : Type} (e : ε) (f : α → Except ε β) :
    ((Except.error e : Except ε α) >>= f) = Except.error e := rfl

@[simp]
theorem jsPure_eq {ε α : Type} (x : α) : (pure x : Except ε α) = Except.ok x := rfl

@[simp]
theorem jsMap_ok {ε α β : Type} (f : α → β) (x : α) :
    Except.map f (Except.ok x : Except ε α) = Except.ok (f x) := rfl

@[simp]
theorem jsMap_error {ε α β : Type} (f : α → β) (e : ε) :
    Except.map f (Except.error e : Except ε α) = Except.error e := rfl

/-! ## The per-run move step: permutation and index bounds -/

theorem runStep_perm (A : List Nat) (blen : Nat) (cur run : List Nat)
    (hr : run.Nodup) (hsub : ∀ x ∈ run, x ∈ cur) (hc : cur.Nodup) :
    List.Perm (runStep A blen cur run).2 cur := by
  simp only [runStep]
  refine (jsSplice_perm _ _ _).trans ?_
  have h1 : List.Perm (cur.filter (fun id => run.contains id)) run :=
    filter_mem_perm cur run hc hr hsub
  have h2 := List.filter_append_perm (fun id => run.contains id) cur
  exact (h1.symm.append_right _).trans h2

theorem runStep_index_range (A : List Nat) (blen : Nat) (cur run : List Nat)
    (hhead : run.headD 0 ∈ A)
    (hA : ∀ x ∈ A, x ∈ cur) (hlen : cur.length = blen) :
    0 ≤ (runStep A blen cur run).1 ∧ (runStep A blen cur run).1 < (blen : Int) := by
  have hcur : run.headD 0 ∈ cur := hA _ hhead
  obtain ⟨ho0, holt⟩ := jsIndexOf_mem_range cur _ hcur
  rw [hlen] at holt
  have hge := jsIndexOf_ge A (run.getLastD 0)
  simp only [runStep]
  by_cases hlt : jsIndexOf A (run.getLastD 0) + 1 < (A.length : Int)
  · rw [if_pos hlt]
    have hmem : jsAt A (jsIndexOf A (run.getLastD 0) + 1) ∈ A :=
      jsAt_mem A _ (by omega) hlt
    obtain ⟨h0, hl⟩ := jsIndexOf_mem_range cur _ (hA _ hmem)
    rw [hlen] at hl
    rw [if_neg (by omega : ¬ jsIndexOf cur (jsAt A (jsIndexOf A (run.getLastD 0) + 1)) < 0)]
    split <;> omega
  · rw [if_neg hlt, if_pos (by omega : (-1 : Int) < 0)]
    have hb1 : 1 ≤ blen := by
      have hpos : 0 < cur.length := List.length_pos.mpr (List.ne_nil_of_mem hcur)
      omega
    rw [if_pos (by omega : jsIndexOf cur (run.headD 0) < (blen : Int))]
    omega

/-! ## Structure of the canonical diff script -/

theorem mem_removedPart {p : DiffPart} {v : List Nat} (h : p ∈ removedPart v) :
    p.added = false := by
  simp only [removedPart] at h
  split at h
  · cases h
  · simp only [List.mem_singleton] at h
    subst h
    rfl

theorem mem_addedPart {p : DiffPart} {v : List Nat} (h : p ∈ addedPart v) :
    p = ⟨true, false, v⟩ ∧ v ≠ [] := by
  simp only [addedPart] at h
  split at h
  · cases h
  · rename_i hne
    simp only [List.mem_singleton] at h
    refine ⟨h, ?_⟩
    intro he
    subst he
    simp at hne

theorem lcsDiff_added_wf :
    ∀ (L b a : List Nat), ∀ p ∈ lcsDiff b a L, p.added = true →
      p.value ≠ [] ∧ p.value.Sublist a := by
  intro L
  induction L with
  | nil =>
      intro b a p hp hadd
      simp only [lcsDiff] at hp
      rcases List.mem_append.mp hp with h | h
      · rw [mem_removedPart h] at hadd
        cases hadd
      · obtain ⟨hpv, hne⟩ := mem_addedPart h
        subst hpv
        exact ⟨hne, List.Sublist.refl a⟩
  | cons x L ih =>
      intro b a p hp hadd
      simp only [lcsDiff] at hp
      rcases List.mem_append.mp hp with h | h
      · rcases List.mem_append.mp h with h2 | h2
        · rw [mem_removedPart h2] at hadd
          cases hadd
        · obtain ⟨hpv, hne⟩ := mem_addedPart h2
          subst hpv
          exact ⟨hne, List.takeWhile_sublist _⟩
      · rcases List.mem_cons.mp h with h3 | h3
        · subst h3
          cases hadd
        · obtain ⟨hne, hsub⟩ := ih _ _ p h3 hadd
          exact ⟨hne, hsub.trans ((List.tail_sublist _).trans (List.dropWhile_sublist _))⟩

theorem applyParts_no_added (A : List Nat) (blen offset : Nat) :
    ∀ (parts : List DiffPart) (cur : List Nat), (∀ p ∈ parts, p.added = false) →
      applyParts A blen offset parts cur = ([], cur) := by
  intro parts
  induction parts with
  | nil => intro cur _; rfl
  | cons p ps ih =>
      intro cur h
      have hp := h p (List.mem_cons_self p ps)
      simp only [applyParts, hp]
      exact ih cur (fun q hq => h q (List.mem_cons_of_mem p hq))

theorem lcsF_self : ∀ (fuel : Nat) (l : List Nat), l.length ≤ fuel → lcsF fuel l l = l := by
  intro fuel
  induction fuel with
  | zero =>
      intro l h
      have hl : l = [] := List.eq_nil_of_length_eq_zero (by omega)
      subst hl
      rfl
  | succ n ih =>
      intro l h
      cases l with
      | nil => rfl
      | cons x xs =>
          have hxs : xs.length ≤ n := by
            simp only [List.length_cons] at h
            omega
          simp [lcsF, ih xs hxs]

theorem lcs_self (l : List Nat) : lcs l l = l :=
  lcsF_self _ _ (by omega)

theorem lcsDiff_self_no_added : ∀ l : List Nat, ∀ p ∈ lcsDiff l l l, p.added = false := by
  intro l
  induction l with
  | nil =>
      intro p hp
      simp [lcsDiff, removedPart, addedPart] at hp
  | cons x xs ih =>
      intro p hp
      simp only [lcsDiff, List.takeWhile_cons, bne_self_eq_false, Bool.false_eq_true,
        if_false, List.dropWhile_cons, List.tail_cons, removedPart, addedPart,
        List.isEmpty_nil, if_true] at hp
      rcases List.mem_cons.mp hp with h | h
      · subst h; rfl
      · exact ih p h

/-! ## Soundness of the emitted move batch -/

theorem applyParts_ops (A : List Nat) (blen offset : Nat) (hA : A.Nodup) :
    ∀ (parts : List DiffPart) (cur : List Nat),
      (∀ p ∈ parts, p.added = true → p.value ≠ [] ∧ p.value.Sublist A) →
      List.Perm cur A → cur.length = blen →
      ∀ op ∈ (applyParts A blen offset parts cur).1,
        op.movingIds ≠ [] ∧ (∀ x ∈ op.movingIds, x ∈ A) ∧
        (offset : Int) ≤ op.index ∧ op.index < (offset : Int) + (blen : Int) := by
  intro parts
  induction parts with
  | nil =>
      intro cur _ _ _ op hop
      simp [applyParts] at hop
  | cons p ps ih =>
      intro cur hparts hperm hlen op hop
      by_cases ha : p.added = true
      · obtain ⟨hne, hsubA⟩ := hparts p (List.mem_cons_self p ps) ha
        have hrnodup : p.value.Nodup := hA.sublist hsubA
        have hsubcur : ∀ x ∈ p.value, x ∈ cur := fun x hx =>
          hperm.mem_iff.mpr (hsubA.subset hx)
        have hcnodup : cur.Nodup := (hperm.nodup_iff).mpr hA
        have hhead : p.value.headD 0 ∈ A := hsubA.subset (headD_mem hne)
        have hbounds := runStep_index_range A blen cur p.value hhead
          (fun x hx => hperm.mem_iff.mpr hx) hlen
        have hperm2 : List.Perm (runStep A blen cur p.value).2 cur :=
          runStep_perm A blen cur p.value hrnodup hsubcur hcnodup
        simp only [applyParts, ha, if_true] at hop
        rcases List.mem_cons.mp hop with h1 | h1
        · subst h1
          refine ⟨hne, fun x hx => hsubA.subset hx, ?_, ?_⟩
          · simp only []
            omega
          · simp only []
            omega
        · exact ih (runStep A blen cur p.value).2
            (fun q hq => hparts q (List.mem_cons_of_mem p hq))
            (hperm2.trans hperm)
            (hperm2.length_eq.trans hlen) op h1
      · simp only [applyParts, ha, if_false] at hop
        exact ih cur (fun q hq => hparts q (List.mem_cons_of_mem p hq)) hperm hlen op hop

/-! ## The sort model: bridge to the pure stable sort, permutation,
error propagation -/

theorem orderedInsertE_lift (c : Tab → Tab → Int) (a : Tab) :
    ∀ l, orderedInsertE (liftCmp c) a l =
      Except.ok (List.orderedInsert (sortLE c) a l) := by
  intro l
  induction l with
  | nil => rfl
  | cons b l ih =>
      by_cases h : c a b ≤ 0
      · simp [orderedInsertE, liftCmp, List.orderedInsert, sortLE, h]
      · simp [orderedInsertE, liftCmp, List.orderedInsert, sortLE, h, ih]

theorem insertionSortE_lift (c : Tab → Tab → Int) :
    ∀ l, insertionSortE (liftCmp c) l =
      Except.ok (List.insertionSort (sortLE c) l) := by
  intro l
  induction l with
  | nil => rfl
  | cons b l ih =>
      simp [insertionSortE, ih, orderedInsertE_lift, List.insertionSort]

theorem orderedInsertE_ok_perm (c : CmpE) (a : Tab) :
    ∀ l r, orderedInsertE c a l = Except.ok r → List.Perm r (a :: l) := by
  intro l
  induction l with
  | nil =>
      intro r h
      simp only [orderedInsertE] at h
      cases h
      exact List.Perm.refl _
  | cons b l ih =>
      intro r h
      simp only [orderedInsertE] at h
      cases hc : c a b with
      | error e => rw [hc] at h; cases h
      | ok v =>
          rw [hc] at h
          simp only [jsBind_ok] at h
          by_cases hv : v ≤ 0
          · rw [if_pos hv] at h
            simp only [jsPure_eq] at h
            cases h
            exact List.Perm.refl _
          · rw [if_neg hv] at h
            cases hr : orderedInsertE c a l with
            | error e => rw [hr] at h; cases h
            | ok r' =>
                rw [hr] at h
                simp only [jsBind_ok, jsPure_eq] at h
                cases h
                exact ((ih r' hr).cons b).trans (List.Perm.swap a b l)

theorem insertionSortE_ok_perm (c : CmpE) :
    ∀ l r, insertionSortE c l = Except.ok r → List.Perm r l := by
  intro l
  induction l with
  | nil =>
      intro r h
      cases h
      exact List.Perm.refl _
  | cons b l ih =>
      intro r h
      simp only [insertionSortE] at h
      cases hr : insertionSortE c l with
      | error e => rw [hr] at h; cases h
      | ok r' =>
          rw [hr] at h
          simp only [jsBind_ok] at h
          exact (orderedInsertE_ok_perm c b r' r h).trans ((ih r' hr).cons b)

theorem orderedInsertE_ok_head (c : CmpE) (a x : Tab) (t r : List Tab)
    (h : orderedInsertE c a (x :: t) = Except.ok r) : ∃ v, c a x = Except.ok v := by
  cases hc : c a x with
  | error e =>
      rw [orderedInsertE, hc] at h
      cases h
  | ok v => exact ⟨v, rfl⟩

theorem insertionSortE_ok_good (P : Tab → Prop) (c : CmpE)
    (hc : ∀ a b, P a ∨ P b → ∃ e, c a b = Except.error e) :
    ∀ l r, insertionSortE c l = Except.ok r → 2 ≤ l.length → ∀ x ∈ l, ¬ P x := by
  intro l
  induction l with
  | nil =>
      intro r h h2 x hx
      cases hx
  | cons a rest ih =>
      intro r h h2 x hx
      simp only [insertionSortE] at h
      cases hrest : insertionSortE c rest with
      | error e => rw [hrest] at h; cases h
      | ok r' =>
          rw [hrest] at h
          simp only [jsBind_ok] at h
          have hperm := insertionSortE_ok_perm c rest r' hrest
          cases rest with
          | nil =>
              simp only [List.length_cons, List.length_nil] at h2
              omega
          | cons b rest2 =>
              have hr'ne : r' ≠ [] := by
                intro hnil
                subst hnil
                have hle := hperm.length_eq
                simp at hle
              obtain ⟨h0, t0, rfl⟩ : ∃ h0 t0, r' = h0 :: t0 := by
                cases r' with
                | nil => exact absurd rfl hr'ne
                | cons h0 t0 => exact ⟨h0, t0, rfl⟩
              obtain ⟨v, hv⟩ := orderedInsertE_ok_head c a h0 t0 r h
              have hnPa : ¬ P a := by
                intro hP
                obtain ⟨e, he⟩ := hc a h0 (Or.inl hP)
                rw [he] at hv
                cases hv
              have hnPh0 : ¬ P h0 := by
                intro hP
                obtain ⟨e, he⟩ := hc a h0 (Or.inr hP)
                rw [he] at hv
                cases hv
              rcases List.mem_cons.mp hx with h1 | h1
              · subst h1
                exact hnPa
              · cases rest2 with
                | nil =>
                    have hsing : (h0 :: t0) = [b] := List.perm_singleton.mp hperm
                    have hb : h0 = b := by injection hsing
                    rw [List.mem_singleton.mp h1, ← hb]
                    exact hnPh0
                | cons d rest3 =>
                    refine ih (h0 :: t0) hrest ?_ x h1
                    simp only [List.length_cons]
                    omega

theorem urlComparators_error (c : CmpE)
    (hc : c = compareByUrlAsc ∨ c = compareByUrlDesc ∨
          c = compareByDomainAsc ∨ c = compareByDomainDesc)
    (a b : Tab) (h : parseURL a.url = none ∨ parseURL b.url = none) :
    ∃ e, c a b = Except.error e := by
  have key : ∀ f : UrlObj → UrlObj → Int,
      ∃ e, (do
        let u1 ← parseURLE a.url
        let u2 ← parseURLE b.url
        pure (f u1 u2) : Except JsErr Int) = Except.error e := by
    intro f
    rcases h with ha | hb
    · exact ⟨JsErr.typeError ("Invalid URL: " ++ a.url), by simp [parseURLE, ha]⟩
    · cases hpa : parseURL a.url with
      | none => exact ⟨JsErr.typeError ("Invalid URL: " ++ a.url), by simp [parseURLE, hpa]⟩
      | some u => exact ⟨JsErr.typeError ("Invalid URL: " ++ b.url), by simp [parseURLE, hpa, hb]⟩
  rcases hc with rfl | rfl | rfl | rfl
  · exact key _
  · exact key _
  · exact key _
  · exact key _

theorem sortTabsInternalCore_error (tabs : List Tab) (c : CmpE) (e : JsErr)
    (h : insertionSortE c tabs = Except.error e) (hne : tabs ≠ []) :
    sortTabsInternalCore tabs c = Except.error e := by
  cases tabs with
  | nil => exact absurd rfl hne
  | cons t0 rest => simp [sortTabsInternalCore, h]

/-! ## Passes that cannot move anything -/

theorem applyParts_diff_self (B : List Nat) (blen off : Nat) :
    applyParts B blen off (differDiff B B) B = ([], B) := by
  rw [differDiff, lcs_self]
  exact applyParts_no_added B blen off _ B (lcsDiff_self_no_added B)

theorem insertionSortE_default (l : List Tab) :
    insertionSortE jsDefaultTabCompare l = Except.ok l := by
  induction l with
  | nil => rfl
  | cons b l ih =>
      simp only [insertionSortE, ih, jsBind_ok]
      cases l with
      | nil => rfl
      | cons x t => simp [orderedInsertE, jsDefaultTabCompare]

theorem sortTabsInternal_fixed (tabs : List Tab) (c : CmpE) (sorted : List Tab)
    (h : insertionSortE c tabs = Except.ok sorted)
    (hids : sorted.map Tab.id = tabs.map Tab.id) :
    sortTabsInternal tabs c = Except.ok [] := by
  cases tabs with
  | nil => rfl
  | cons t0 rest =>
      simp only [sortTabsInternal, sortTabsInternalCore, h, jsBind_ok, hids, jsPure_eq]
      rw [applyParts_diff_self]
      rfl

theorem sortTabsInternal_default (l : List Tab) :
    sortTabsInternal l jsDefaultTabCompare = Except.ok [] :=
  sortTabsInternal_fixed l jsDefaultTabCompare l (insertionSortE_default l) rfl

theorem sortTabs_none (settings : Settings) (tabs : List Tab) :
    sortTabs none settings tabs = Except.ok [] := by
  cases hsp : settings.sortPinned <;>
    simp [sortTabs, hsp, sortTabsInternal_default]

/-! ## Stability of the sort model -/

theorem filter_orderedInsert_pos (c : Tab → Tab → Int) (p : Tab → Bool) (a : Tab)
    (hpa : p a = true) :
    ∀ s : List Tab, (∀ b ∈ s, p b = true → sortLE c a b) →
      (List.orderedInsert (sortLE c) a s).filter p = a :: s.filter p := by
  intro s
  induction s with
  | nil =>
      intro _
      simp [List.orderedInsert, hpa]
  | cons b s ih =>
      intro hs
      by_cases hab : sortLE c a b
      · rw [List.orderedInsert_of_le _ _ hab, List.filter_cons_of_pos hpa]
      · have hoi : List.orderedInsert (sortLE c) a (b :: s) =
            b :: List.orderedInsert (sortLE c) a s := by
          simp [List.orderedInsert, hab]
        have hpb : p b = false := by
          cases hpbv : p b
          · rfl
          · exact absurd (hs b (List.mem_cons_self b s) hpbv) hab
        rw [hoi, List.filter_cons_of_neg (by simp [hpb]),
          ih (fun x hx hpx => hs x (List.mem_cons_of_mem b hx) hpx),
          List.filter_cons_of_neg (by simp [hpb])]

theorem filter_orderedInsert_neg (c : Tab → Tab → Int) (p : Tab → Bool) (a : Tab)
    (hpa : p a = false) :
    ∀ s : List Tab, (List.orderedInsert (sortLE c) a s).filter p = s.filter p := by
  intro s
  induction s with
  | nil => simp [List.orderedInsert, hpa]
  | cons b s ih =>
      by_cases hab : sortLE c a b
      · rw [List.orderedInsert_of_le _ _ hab, List.filter_cons_of_neg (by simp [hpa])]
      · have hoi : List.orderedInsert (sortLE c) a (b :: s) =
            b :: List.orderedInsert (sortLE c) a s := by
          simp [List.orderedInsert, hab]
        rw [hoi]
        cases hpb : p b
        · rw [List.filter_cons_of_neg (by simp [hpb]), ih,
            List.filter_cons_of_neg (by simp [hpb])]
        · rw [List.filter_cons_of_pos hpb, ih, List.filter_cons_of_pos hpb]

theorem insertionSort_filter_stable (c : Tab → Tab → Int) (p : Tab → Bool) :
    ∀ l : List Tab, (∀ a ∈ l, ∀ b ∈ l, p a = true → p b = true → sortLE c a b) →
      (List.insertionSort (sortLE c) l).filter p = l.filter p := by
  intro l
  induction l with
  | nil =>
      intro _
      rfl
  | cons a l ih =>
      intro hp
      have hrec := ih (fun x hx y hy => hp x (List.mem_cons_of_mem a hx)
        y (List.mem_cons_of_mem a hy))
      simp only [List.insertionSort]
      cases hpa : p a
      · rw [filter_orderedInsert_neg c p a hpa, hrec,
          List.filter_cons_of_neg (by simp [hpa])]
      · rw [filter_orderedInsert_pos c p a hpa _ ?hin, hrec,
          List.filter_cons_of_pos hpa]
        case hin =>
          intro b hb hpb
          exact hp a (List.mem_cons_self a l)
            b (List.mem_cons_of_mem a ((List.mem_insertionSort _).mp hb)) hpa hpb

/-! ## Order facts about the comparator keys -/

theorem charListLt_asymm :
    ∀ a b : List Char, charListLt a b = true → charListLt b a = false := by
  intro a
  induction a with
  | nil =>
      intro b h
      cases b with
      | nil => cases h
      | cons y ys => rfl
  | cons x xs ih =>
      intro b h
      cases b with
      | nil => cases h
      | cons y ys =>
          simp only [charListLt] at h ⊢
          by_cases h1 : x.toNat < y.toNat
          · rw [if_neg (by omega : ¬ y.toNat < x.toNat), if_pos h1]
          · rw [if_neg h1] at h
            by_cases h2 : y.toNat < x.toNat
            · rw [if_pos h2] at h
              cases h
            · rw [if_neg h2] at h
              rw [if_neg h2, if_neg h1]
              exact ih ys h

theorem charListLt_le_trans :
    ∀ a b c : List Char, charListLt b a = false → charListLt c b = false →
      charListLt c a = false := by
  intro a
  induction a with
  | nil =>
      intro b c h1 h2
      cases c with
      | nil => rfl
      | cons z zs => rfl
  | cons x xs ih =>
      intro b c h1 h2
      cases b with
      | nil => cases h1
      | cons y ys =>
          cases c with
          | nil => cases h2
          | cons z zs =>
              simp only [charListLt] at h1 h2 ⊢
              by_cases h1a : y.toNat < x.toNat
              · rw [if_pos h1a] at h1
                cases h1
              · rw [if_neg h1a] at h1
                by_cases h2a : z.toNat < y.toNat
                · rw [if_pos h2a] at h2
                  cases h2
                · rw [if_neg h2a] at h2
                  rw [if_neg (by omega : ¬ z.toNat < x.toNat)]
                  by_cases h3 : x.toNat < z.toNat
                  · rw [if_pos h3]
                  · rw [if_neg h3]
                    rw [if_neg (by omega : ¬ x.toNat < y.toNat)] at h1
                    rw [if_neg (by omega : ¬ y.toNat < z.toNat)] at h2
                    exact ih ys zs h1 h2

theorem jsCompare_nonpos_iff (s t : String) :
    jsCompare s t ≤ 0 ↔ strLt t s = false := by
  unfold jsCompare
  cases hst : strLt s t
  · cases hts : strLt t s
    · decide
    · decide
  · have h : strLt t s = false := charListLt_asymm s.toList t.toList hst
    rw [h]
    decide

theorem jsCompare_le_total (s t : String) : jsCompare s t ≤ 0 ∨ jsCompare t s ≤ 0 := by
  rw [jsCompare_nonpos_iff, jsCompare_nonpos_iff]
  cases hts : strLt t s
  · exact Or.inl rfl
  · exact Or.inr (charListLt_asymm t.toList s.toList hts)

theorem jsCompare_le_trans (s t u : String)
    (h1 : jsCompare s t ≤ 0) (h2 : jsCompare t u ≤ 0) : jsCompare s u ≤ 0 := by
  rw [jsCompare_nonpos_iff] at h1 h2 ⊢
  exact charListLt_le_trans s.toList t.toList u.toList h1 h2

theorem compareByTitleAsc_lift : compareByTitleAsc = liftCmp byTitleAsc := rfl

theorem byTitleAsc_total : ∀ a b : Tab, sortLE byTitleAsc a b ∨ sortLE byTitleAsc b a := by
  intro a b
  unfold sortLE byTitleAsc
  exact jsCompare_le_total a.title b.title

theorem byTitleAsc_trans : ∀ a b d : Tab,
    sortLE byTitleAsc a b → sortLE byTitleAsc b d → sortLE byTitleAsc a d := by
  intro a b d
  unfold sortLE byTitleAsc
  exact jsCompare_le_trans a.title b.title d.title

/-! ## Passes with an infallible comparator always complete -/

theorem sortTabsInternal_lift_eq (c : Tab → Tab → Int) (t0 : Tab) (rest : List Tab) :
    sortTabsInternal (t0 :: rest) (liftCmp c) =
      Except.ok (applyParts ((List.insertionSort (sortLE c) (t0 :: rest)).map Tab.id)
        ((t0 :: rest).map Tab.id).length t0.index
        (differDiff ((t0 :: rest).map Tab.id)
          ((List.insertionSort (sortLE c) (t0 :: rest)).map Tab.id))
        ((t0 :: rest).map Tab.id)).1 := by
  simp [sortTabsInternal, sortTabsInternalCore, insertionSortE_lift]

theorem sortTabsInternal_lift_ok (c : Tab → Tab → Int) (l : List Tab) :
    ∃ r, sortTabsInternal l (liftCmp c) = Except.ok r := by
  cases l with
  | nil => exact ⟨[], rfl⟩
  | cons t0 rest => exact ⟨_, sortTabsInternal_lift_eq c t0 rest⟩

theorem sortTabs_lift_ok (c : Tab → Tab → Int) (settings : Settings) (tabs : List Tab) :
    ∃ ops, sortTabs (some (liftCmp c)) settings tabs = Except.ok ops := by
  obtain ⟨r1, hr1⟩ := sortTabsInternal_lift_ok c (tabs.filter fun t => t.pinned)
  obtain ⟨r2, hr2⟩ := sortTabsInternal_lift_ok c (tabs.filter fun t => !t.pinned)
  cases hsp : settings.sortPinned
  · exact ⟨r2, by simp [sortTabs, hsp, hr2]⟩
  · exact ⟨r1 ++ r2, by simp [sortTabs, hsp, hr1, hr2]⟩

/-! ## The code's destination index agrees with the specified one -/

theorem runStep_eq_spec (A : List Nat) (blen : Nat) (cur run : List Nat)
    (hlast : run.getLastD 0 ∈ A) (hA : ∀ x ∈ A, x ∈ cur) :
    (runStep A blen cur run).1 = specDestinationIndex A blen cur run := by
  obtain ⟨hi0, hilt⟩ := jsIndexOf_mem_range A _ hlast
  simp only [runStep, specDestinationIndex]
  by_cases hlt : jsIndexOf A (run.getLastD 0) + 1 < (A.length : Int)
  · have hn : (jsIndexOf A (run.getLastD 0)).toNat + 1 < A.length := by omega
    have hjsAt : jsAt A (jsIndexOf A (run.getLastD 0) + 1)
        = A[(jsIndexOf A (run.getLastD 0)).toNat + 1] := by
      have ht : (jsIndexOf A (run.getLastD 0) + 1).toNat
          = (jsIndexOf A (run.getLastD 0)).toNat + 1 := by omega
      simp only [jsAt, List.getD_eq_getElem?_getD]
      rw [ht, List.getElem?_eq_getElem hn]
      rfl
    have hanchor : A.get? ((jsIndexOf A (run.getLastD 0)).toNat + 1)
        = some (A[(jsIndexOf A (run.getLastD 0)).toNat + 1]) := by
      rw [List.get?_eq_getElem?]
      exact List.getElem?_eq_getElem hn
    have hred : (match A.get? ((jsIndexOf A (run.getLastD 0)).toNat + 1) with
        | some x => jsIndexOf cur x
        | none => (blen : Int))
        = jsIndexOf cur A[(jsIndexOf A (run.getLastD 0)).toNat + 1] := by
      rw [hanchor]
    have hmem : A[(jsIndexOf A (run.getLastD 0)).toNat + 1] ∈ A := List.getElem_mem hn
    obtain ⟨h0, _⟩ := jsIndexOf_mem_range cur _ (hA _ hmem)
    rw [if_pos hlt, hjsAt, hred,
      if_neg (by omega : ¬ jsIndexOf cur A[(jsIndexOf A (run.getLastD 0)).toNat + 1] < 0)]
  · have hanchor : A.get? ((jsIndexOf A (run.getLastD 0)).toNat + 1) = none := by
      rw [List.get?_eq_getElem?]
      exact List.getElem?_eq_none (by omega)
    have hred : (match A.get? ((jsIndexOf A (run.getLastD 0)).toNat + 1) with
        | some x => jsIndexOf cur x
        | none => (blen : Int)) = (blen : Int) := by
      rw [hanchor]
    rw [if_neg hlt, if_pos (by omega : (-1 : Int) < 0), hred]

/-! ## Claim theorems -/

/-- C1: the engine is claimed to transform every partition into
comparator-sorted order while preserving the identifier multiset. The
code violates the first half: on the five-tab partition `c1Tabs`, whose
title-sorted target is `[2, 3, 1, 0, 4]` (forced: `[2, 3, 4]` is the
unique longest common subsequence, so the diff's single added run is
`[1, 0]` anchored before `4`), the single decrement of the destination
index cannot account for two run elements sitting before the anchor,
and the pass ends with `currentIds = [2, 3, 4, 1, 0]`, not the target.
The permutation half of the claim does hold at this input. -/
theorem claim_C1_code_bug :
    c1Tabs.map Tab.id = [0, 1, 2, 3, 4] ∧
    (insertionSortE compareByTitleAsc c1Tabs).map (fun l => l.map Tab.id) =
      Except.ok [2, 3, 1, 0, 4] ∧
    sortTabsInternalCore c1Tabs compareByTitleAsc =
      Except.ok ([{ movingIds := [1, 0], index := 3 }], [2, 3, 4, 1, 0]) ∧
    ([2, 3, 4, 1, 0] : List Nat) ≠ [2, 3, 1, 0, 4] ∧
    List.Perm ([2, 3, 4, 1, 0] : List Nat) (c1Tabs.map Tab.id) := by
  decide

/-- C4, counterexample to idempotence as stated: the first pass on
`c1Tabs` leaves the strip in order `[2, 3, 4, 1, 0]` (not the sorted
target), and a second pass on that order emits a MoveOp. -/
theorem claim_C4_counterexample :
    (sortTabsInternalCore c1Tabs compareByTitleAsc).map Prod.snd =
      Except.ok [2, 3, 4, 1, 0] ∧
    c4TabsSecond.map Tab.id = [2, 3, 4, 1, 0] ∧
    sortTabsInternal c4TabsSecond compareByTitleAsc =
      Except.ok [{ movingIds := [4], index := 4 }] ∧
    ([{ movingIds := [4], index := 4 }] : List MoveOp) ≠ [] := by
  decide

/-- C4 (amended): a partition already in comparator-sorted order
produces zero MoveOps, and a pass on the comparator-sorted arrangement
of any tab list (the order a correct first pass would reach) produces
zero MoveOps; idempotence as originally stated fails only because the
first pass does not always reach that arrangement. -/
theorem claim_C4 (c : Tab → Tab → Int) (tabs tabs2 : List Tab)
    (htot : ∀ a b : Tab, sortLE c a b ∨ sortLE c b a)
    (htrans : ∀ a b d : Tab, sortLE c a b → sortLE c b d → sortLE c a d)
    (hsorted : List.Sorted (sortLE c) tabs) :
    sortTabsInternal tabs (liftCmp c) = Except.ok [] ∧
    sortTabsInternal (List.insertionSort (sortLE c) tabs2) (liftCmp c) = Except.ok [] := by
  haveI : IsTotal Tab (sortLE c) := ⟨htot⟩
  haveI : IsTrans Tab (sortLE c) := ⟨htrans⟩
  constructor
  · exact sortTabsInternal_fixed tabs (liftCmp c) tabs
      (by rw [insertionSortE_lift, hsorted.insertionSort_eq]) rfl
  · have hs2 : List.Sorted (sortLE c) (List.insertionSort (sortLE c) tabs2) :=
      List.sorted_insertionSort (sortLE c) tabs2
    exact sortTabsInternal_fixed _ (liftCmp c) _
      (by rw [insertionSortE_lift, hs2.insertionSort_eq]) rfl

theorem claim_C4_witness :
    sortTabsInternal c4SortedTabs (liftCmp byTitleAsc) = Except.ok [] ∧
    sortTabsInternal (List.insertionSort (sortLE byTitleAsc) c1Tabs) (liftCmp byTitleAsc) =
      Except.ok [] :=
  claim_C4 byTitleAsc c4SortedTabs c1Tabs byTitleAsc_total byTitleAsc_trans (by decide)

/-- C2: per added run, the destination index the code computes (lines
202-210) equals the one prescribed by the spec (anchor = element after
the run's last id in `afterIds`; its current position in the live
working copy, or the original length when the run is at the end;
decremented exactly when the run's first element currently precedes
it), and the emitted MoveOp carries that index plus the partition
offset. -/
theorem claim_C2 (A : List Nat) (blen : Nat) (cur run : List Nat) (offset : Nat)
    (v : List Nat) (ps : List DiffPart) (cur2 : List Nat)
    (hlast : run.getLastD 0 ∈ A) (hA : ∀ x ∈ A, x ∈ cur) :
    (runStep A blen cur run).1 = specDestinationIndex A blen cur run ∧
    applyParts A blen offset ({ added := true, removed := false, value := v } :: ps) cur2 =
      ({ movingIds := v, index := (runStep A blen cur2 v).1 + (offset : Int) } ::
        (applyParts A blen offset ps (runStep A blen cur2 v).2).1,
       (applyParts A blen offset ps (runStep A blen cur2 v).2).2) :=
  ⟨runStep_eq_spec A blen cur run hlast hA, by simp [applyParts]⟩

theorem claim_C2_witness :
    (runStep [2, 3, 1, 0, 4] 5 [0, 1, 2, 3, 4] [1, 0]).1 =
      specDestinationIndex [2, 3, 1, 0, 4] 5 [0, 1, 2, 3, 4] [1, 0] ∧
    applyParts [2, 3, 1, 0, 4] 5 0
        [{ added := true, removed := false, value := [1, 0] }] [0, 1, 2, 3, 4] =
      ({ movingIds := [1, 0],
         index := (runStep [2, 3, 1, 0, 4] 5 [0, 1, 2, 3, 4] [1, 0]).1 + (0 : Int) } ::
        (applyParts [2, 3, 1, 0, 4] 5 0 []
          (runStep [2, 3, 1, 0, 4] 5 [0, 1, 2, 3, 4] [1, 0]).2).1,
       (applyParts [2, 3, 1, 0, 4] 5 0 []
         (runStep [2, 3, 1, 0, 4] 5 [0, 1, 2, 3, 4] [1, 0]).2).2) :=
  claim_C2 [2, 3, 1, 0, 4] 5 [0, 1, 2, 3, 4] [1, 0] 0 [1, 0] [] [0, 1, 2, 3, 4]
    (by decide) (by decide)

/-- C5, counterexample: with an unregistered sort-spec key the pass IS
started (`sortTabs` is invoked with an undefined comparator) and no
diagnostic is produced, contrary to the claim. -/
theorem claim_C5_counterexample :
    menuIdToComparator "sort-by-size" = none ∧
    sortTabsComparatorName "sort-by-size"
        { sortAuto := false, sortPinned := false, lastComparator := none } c1Tabs =
      { ranSort := true, warnings := [], result := Except.ok [] } := by
  constructor
  · rfl
  · decide

/-- C5 (amended): for a key with no registered comparator,
`sortTabsComparatorName` starts the pass anyway, passing the undefined
comparator through to `sortTabs`; the default sort then compares all
tab objects equal, so the order is unchanged, zero MoveOps are emitted
and no diagnostic is raised. -/
theorem claim_C5 (compName : String) (settings : Settings) (tabs : List Tab)
    (h : menuIdToComparator compName = none) :
    sortTabsComparatorName compName settings tabs =
      { ranSort := true, warnings := [], result := Except.ok [] } := by
  rw [sortTabsComparatorName, h, sortTabs_none]

theorem claim_C5_witness :
    sortTabsComparatorName "no-such-comparator"
        { sortAuto := true, sortPinned := true, lastComparator := none } c3Tabs =
      { ranSort := true, warnings := [], result := Except.ok [] } :=
  claim_C5 "no-such-comparator"
    { sortAuto := true, sortPinned := true, lastComparator := none } c3Tabs rfl

/-- C6, counterexample to the claim as stated: a single-record
partition containing an unparseable url performs no comparator call, so
the pass completes without error and without MoveOps instead of
aborting. -/
theorem claim_C6_counterexample :
    parseURL badTab.url = none ∧
    sortTabsInternalCore [badTab] compareByUrlAsc = Except.ok ([], [9]) := by
  decide

/-- C6 (amended): in a partition of at least two records containing a
record with an unparseable url, every URL-based or domain-based
comparator call involving that record errors, and the partition's pass
aborts during the sort - before any MoveOp is emitted. A one-record
partition performs no comparator call and completes without error. -/
theorem claim_C6 (c : CmpE)
    (hc : c = compareByUrlAsc ∨ c = compareByUrlDesc ∨
          c = compareByDomainAsc ∨ c = compareByDomainDesc)
    (tabs : List Tab) (bad t : Tab)
    (hlen : 2 ≤ tabs.length) (hmem : bad ∈ tabs) (hbad : parseURL bad.url = none) :
    isErr (c bad t) = true ∧ isErr (c t bad) = true ∧
    isErr (sortTabsInternalCore tabs c) = true := by
  obtain ⟨e1, he1⟩ := urlComparators_error c hc bad t (Or.inl hbad)
  obtain ⟨e2, he2⟩ := urlComparators_error c hc t bad (Or.inr hbad)
  refine ⟨by rw [he1]; rfl, by rw [he2]; rfl, ?_⟩
  cases hs : insertionSortE c tabs with
  | ok r =>
      have hgood := insertionSortE_ok_good (fun x => parseURL x.url = none) c
        (fun a b h => urlComparators_error c hc a b h) tabs r hs hlen bad hmem
      exact absurd hbad hgood
  | error e =>
      have hne : tabs ≠ [] := by
        intro hnil
        rw [hnil] at hlen
        simp at hlen
      rw [sortTabsInternalCore_error tabs c e hs hne]
      rfl

theorem claim_C6_witness :
    isErr (compareByUrlAsc badTab goodTab) = true ∧
    isErr (compareByUrlAsc goodTab badTab) = true ∧
    isErr (sortTabsInternalCore [badTab, goodTab] compareByUrlAsc) = true :=
  claim_C6 compareByUrlAsc (Or.inl rfl) [badTab, goodTab] badTab goodTab
    (by decide) (by decide) (by decide)

/-- C7: with no valid last comparator the handler does skip the sorting
pass, but the claimed diagnostic is never emitted: the code calls
`console.warning`, a member the console object does not have, so a
TypeError is raised inside the handler's continuation instead (the
intended call is `console.warn`). -/
theorem claim_C7_code_bug :
    consoleCall "warn" autoSortWarning = Except.ok [autoSortWarning] ∧
    consoleCall "warning" autoSortWarning =
      Except.error (JsErr.typeError "console.warning is not a function") ∧
    settingsSortAutoHandler
        { sortAuto := true, sortPinned := false, lastComparator := none } c1Tabs =
      { ranSort := false, warnings := [],
        result := Except.error (JsErr.typeError "console.warning is not a function") } ∧
    settingsSortAutoHandler
        { sortAuto := true, sortPinned := false, lastComparator := some "sort-by-x" } c1Tabs =
      { ranSort := false, warnings := [],
        result := Except.error (JsErr.typeError "console.warning is not a function") } := by
  decide

theorem compareByTitleDesc_lift : compareByTitleDesc = liftCmp byTitleDesc := rfl

theorem compareByLastAccessAsc_lift :
    compareByLastAccessAsc = liftCmp byLastAccessAsc := rfl

theorem compareByLastAccessDesc_lift :
    compareByLastAccessDesc = liftCmp byLastAccessDesc := rfl

/-- C8: the sort is stable - for any comparator and any class of
records that compare mutually no-greater, the subsequence of class
members is unchanged by sorting - and on an input whose records all
compare equal the sorted order equals the input order, so zero MoveOps
are emitted. -/
theorem claim_C8 (c : Tab → Tab → Int) (tabs tabsEq : List Tab) (p : Tab → Bool)
    (hp : ∀ a ∈ tabs, ∀ b ∈ tabs, p a = true → p b = true → sortLE c a b)
    (hall : ∀ a ∈ tabsEq, ∀ b ∈ tabsEq, c a b = 0) :
    (List.insertionSort (sortLE c) tabs).filter p = tabs.filter p ∧
    insertionSortE (liftCmp c) tabsEq = Except.ok tabsEq ∧
    sortTabsInternal tabsEq (liftCmp c) = Except.ok [] := by
  have hid : List.insertionSort (sortLE c) tabsEq = tabsEq := by
    have hfil := insertionSort_filter_stable c (fun _ => true) tabsEq
      (fun a ha b hb _ _ => by simp [sortLE, hall a ha b hb])
    simpa [List.filter_true] using hfil
  refine ⟨insertionSort_filter_stable c p tabs hp, ?_, ?_⟩
  · rw [insertionSortE_lift, hid]
  · exact sortTabsInternal_fixed tabsEq (liftCmp c) tabsEq
      (by rw [insertionSortE_lift, hid]) rfl

theorem claim_C8_witness :
    ((List.insertionSort (sortLE byTitleAsc) c1Tabs).filter (fun t => t.title == "c")
        = c1Tabs.filter (fun t => t.title == "c")) ∧
    insertionSortE (liftCmp byTitleAsc) c8EqTabs = Except.ok c8EqTabs ∧
    sortTabsInternal c8EqTabs (liftCmp byTitleAsc) = Except.ok [] ∧
    sortTabsInternal c8EqTabs (liftCmp byTitleDesc) = Except.ok [] := by
  have h1 := claim_C8 byTitleAsc c1Tabs c8EqTabs (fun t => t.title == "c")
    (by decide) (by decide)
  have h2 := claim_C8 byTitleDesc c8EqTabs c8EqTabs (fun _ => true)
    (by decide) (by decide)
  exact ⟨h1.1, h1.2.1, h1.2.2, h2.2.2⟩

/-- C9, counterexample to the claimed example keys: the last two
dot-separated labels of `b.example.com` are `example` and `com`, so the
code keys it by `example.com`, not by `com` as the claim states. -/
theorem claim_C9_counterexample :
    lastTwoLabels "b.example.com" = "example.com" ∧
    ("example.com" : String) ≠ "com" ∧
    compareByDomainAsc c9TabA c9TabB = Except.ok (jsCompare "co.uk" "example.com") := by
  decide

/-- C9 (amended): on records whose urls parse, the domain comparators
compare exactly the last two dot-separated labels of the parsed
hostnames - `a.example.co.uk` is keyed by `co.uk` and `b.example.com`
by `example.com` - not the true registrable domain. -/
theorem claim_C9 (a b : Tab) (ua ub : UrlObj)
    (ha : parseURL a.url = some ua) (hb : parseURL b.url = some ub) :
    compareByDomainAsc a b =
      Except.ok (jsCompare (lastTwoLabels ua.hostname) (lastTwoLabels ub.hostname)) ∧
    compareByDomainDesc a b =
      Except.ok (jsCompare (lastTwoLabels ub.hostname) (lastTwoLabels ua.hostname)) := by
  constructor
  · simp [compareByDomainAsc, parseURLE, ha, hb]
  · simp [compareByDomainDesc, parseURLE, ha, hb]

theorem claim_C9_witness :
    parseURL c9TabA.url = some { hostname := "a.example.co.uk" } ∧
    parseURL c9TabB.url = some { hostname := "b.example.com" } ∧
    lastTwoLabels "a.example.co.uk" = "co.uk" ∧
    lastTwoLabels "b.example.com" = "example.com" ∧
    compareByDomainAsc c9TabA c9TabB = Except.ok (jsCompare "co.uk" "example.com") := by
  refine ⟨by decide, by decide, by decide, by decide, ?_⟩
  have h := (claim_C9 c9TabA c9TabB { hostname := "a.example.co.uk" }
    { hostname := "b.example.com" } (by decide) (by decide)).1
  rw [show lastTwoLabels "a.example.co.uk" = "co.uk" from by decide,
      show lastTwoLabels "b.example.com" = "example.com" from by decide] at h
  exact h

/-- C10: the title comparators depend only on the title fields of
their two arguments, and the last-access comparators only on the
lastAccessed fields - each invariance assuming agreement on that one
field alone, with every other field (including unparseable urls) free
to differ - and a sorting pass driven by any of these comparators
never ends in an error. -/
theorem claim_C10 (a b a2 b2 p q p2 q2 : Tab) (settings : Settings) (tabs : List Tab)
    (hta : a.title = a2.title) (htb : b.title = b2.title)
    (hla : p.lastAccessed = p2.lastAccessed) (hlb : q.lastAccessed = q2.lastAccessed) :
    (compareByTitleAsc a b = compareByTitleAsc a2 b2 ∧
     compareByTitleDesc a b = compareByTitleDesc a2 b2) ∧
    (compareByLastAccessAsc p q = compareByLastAccessAsc p2 q2 ∧
     compareByLastAccessDesc p q = compareByLastAccessDesc p2 q2) ∧
    (isErr (sortTabs (some compareByTitleAsc) settings tabs) = false ∧
     isErr (sortTabs (some compareByTitleDesc) settings tabs) = false ∧
     isErr (sortTabs (some compareByLastAccessAsc) settings tabs) = false ∧
     isErr (sortTabs (some compareByLastAccessDesc) settings tabs) = false) := by
  refine ⟨⟨?_, ?_⟩, ⟨?_, ?_⟩, ?_, ?_, ?_, ?_⟩
  · simp [compareByTitleAsc, hta, htb]
  · simp [compareByTitleDesc, hta, htb]
  · simp [compareByLastAccessAsc, hla, hlb]
  · simp [compareByLastAccessDesc, hla, hlb]
  · obtain ⟨ops, hops⟩ := sortTabs_lift_ok byTitleAsc settings tabs
    rw [compareByTitleAsc_lift, hops]
    rfl
  · obtain ⟨ops, hops⟩ := sortTabs_lift_ok byTitleDesc settings tabs
    rw [compareByTitleDesc_lift, hops]
    rfl
  · obtain ⟨ops, hops⟩ := sortTabs_lift_ok byLastAccessAsc settings tabs
    rw [compareByLastAccessAsc_lift, hops]
    rfl
  · obtain ⟨ops, hops⟩ := sortTabs_lift_ok byLastAccessDesc settings tabs
    rw [compareByLastAccessDesc_lift, hops]
    rfl

theorem claim_C10_witness :
    (compareByTitleAsc c10Tab1 c10Tab2 = compareByTitleAsc c10Tab2 c10Tab1 ∧
     compareByTitleDesc c10Tab1 c10Tab2 = compareByTitleDesc c10Tab2 c10Tab1) ∧
    (compareByLastAccessAsc c10Tab3 c10Tab4 = compareByLastAccessAsc c10Tab4 c10Tab3 ∧
     compareByLastAccessDesc c10Tab3 c10Tab4 = compareByLastAccessDesc c10Tab4 c10Tab3) ∧
    (isErr (sortTabs (some compareByTitleAsc)
        { sortAuto := false, sortPinned := true, lastComparator := none }
        [c10Tab1, c10Tab2, c10Tab3, c10Tab4]) = false ∧
     isErr (sortTabs (some compareByTitleDesc)
        { sortAuto := false, sortPinned := true, lastComparator := none }
        [c10Tab1, c10Tab2, c10Tab3, c10Tab4]) = false ∧
     isErr (sortTabs (some compareByLastAccessAsc)
        { sortAuto := false, sortPinned := true, lastComparator := none }
        [c10Tab1, c10Tab2, c10Tab3, c10Tab4]) = false ∧
     isErr (sortTabs (some compareByLastAccessDesc)
        { sortAuto := false, sortPinned := true, lastComparator := none }
        [c10Tab1, c10Tab2, c10Tab3, c10Tab4]) = false) :=
  claim_C10 c10Tab1 c10Tab2 c10Tab2 c10Tab1 c10Tab3 c10Tab4 c10Tab4 c10Tab3
    { sortAuto := false, sortPinned := true, lastComparator := none }
    [c10Tab1, c10Tab2, c10Tab3, c10Tab4] rfl rfl rfl rfl

/-- C3: with `sortPinned` off, every emitted MoveOp moves only
identifiers of the normal partition - never a pinned identifier - and
its destination index stays inside the normal partition's offset range
`[offset, offset + length)`. -/
theorem claim_C3 (cmpOpt : Option CmpE) (settings : Settings) (tabs : List Tab)
    (t0 : Tab) (rest : List Tab) (ops : List MoveOp) (op : MoveOp)
    (hpin : settings.sortPinned = false)
    (hnd : (tabs.map Tab.id).Nodup)
    (hnorm : tabs.filter (fun t => !t.pinned) = t0 :: rest)
    (hok : sortTabs cmpOpt settings tabs = Except.ok ops)
    (hop : op ∈ ops) :
    op.movingIds.Disjoint ((tabs.filter (fun t => t.pinned)).map Tab.id) ∧
    (t0.index : Int) ≤ op.index ∧
    op.index < (t0.index : Int) + ((t0 :: rest).length : Int) := by
  simp only [sortTabs, hpin, Bool.false_eq_true, if_false, jsPure_eq, jsBind_ok] at hok
  cases hno : sortTabsInternal (tabs.filter fun t => !t.pinned)
      (cmpOpt.getD jsDefaultTabCompare) with
  | error e =>
      rw [hno] at hok
      simp at hok
  | ok nops =>
      rw [hno] at hok
      simp only [jsBind_ok, jsPure_eq, List.nil_append, Except.ok.injEq] at hok
      subst hok
      rw [hnorm, sortTabsInternal] at hno
      cases hcore : sortTabsInternalCore (t0 :: rest) (cmpOpt.getD jsDefaultTabCompare) with
      | error e =>
          rw [hcore] at hno
          simp at hno
      | ok pr =>
          rw [hcore] at hno
          simp only [jsMap_ok, Except.ok.injEq] at hno
          simp only [sortTabsInternalCore] at hcore
          cases hs : insertionSortE (cmpOpt.getD jsDefaultTabCompare) (t0 :: rest) with
          | error e =>
              rw [hs] at hcore
              simp at hcore
          | ok sorted =>
              rw [hs] at hcore
              simp only [jsBind_ok, jsPure_eq, Except.ok.injEq] at hcore
              have hpermT : List.Perm sorted (t0 :: rest) :=
                insertionSortE_ok_perm _ _ _ hs
              have hpermIds : List.Perm (sorted.map Tab.id) ((t0 :: rest).map Tab.id) :=
                hpermT.map Tab.id
              have hBnd : ((t0 :: rest).map Tab.id).Nodup := by
                have hsub : ((tabs.filter fun t => !t.pinned).map Tab.id).Sublist
                    (tabs.map Tab.id) :=
                  List.Sublist.map Tab.id (List.filter_sublist tabs)
                rw [hnorm] at hsub
                exact hnd.sublist hsub
              have hAnd : (sorted.map Tab.id).Nodup := hpermIds.nodup_iff.mpr hBnd
              have hop2 : op ∈ (applyParts (sorted.map Tab.id)
                  ((t0 :: rest).map Tab.id).length t0.index
                  (differDiff ((t0 :: rest).map Tab.id) (sorted.map Tab.id))
                  ((t0 :: rest).map Tab.id)).1 := by
                rw [hcore, hno]
                exact hop
              have hmain := applyParts_ops (sorted.map Tab.id)
                ((t0 :: rest).map Tab.id).length t0.index hAnd
                (differDiff ((t0 :: rest).map Tab.id) (sorted.map Tab.id))
                ((t0 :: rest).map Tab.id)
                (fun p hp ha => lcsDiff_added_wf _ _ _ p hp ha)
                hpermIds.symm rfl op hop2
              obtain ⟨hne, hsubA, hlow, hhigh⟩ := hmain
              refine ⟨?_, hlow, ?_⟩
              · intro x hx hxpin
                have hxA : x ∈ sorted.map Tab.id := hsubA x hx
                have hxB : x ∈ (tabs.filter fun t => !t.pinned).map Tab.id := by
                  rw [hnorm]
                  exact hpermIds.subset hxA
                obtain ⟨t1, ht1mem, ht1id⟩ := List.mem_map.mp hxB
                obtain ⟨t2, ht2mem, ht2id⟩ := List.mem_map.mp hxpin
                have heq : t1 = t2 :=
                  List.inj_on_of_nodup_map hnd (List.mem_of_mem_filter ht1mem)
                    (List.mem_of_mem_filter ht2mem) (by rw [ht1id, ht2id])
                have hp1 := List.of_mem_filter ht1mem
                have hp2 := List.of_mem_filter ht2mem
                rw [heq] at hp1
                simp [hp2] at hp1
              · simpa using hhigh

theorem claim_C3_witness :
    (({ movingIds := [1], index := 2 } : MoveOp).movingIds).Disjoint
        ((c3Tabs.filter (fun t => t.pinned)).map Tab.id) ∧
    (((sampleTab 1 1 "b").index : Int) ≤ ({ movingIds := [1], index := 2 } : MoveOp).index) ∧
    ({ movingIds := [1], index := 2 } : MoveOp).index <
      ((sampleTab 1 1 "b").index : Int) +
        (((sampleTab 1 1 "b") :: [sampleTab 2 2 "a"]).length : Int) :=
  claim_C3 (some compareByTitleAsc)
    { sortAuto := false, sortPinned := false, lastComparator := none }
    c3Tabs (sampleTab 1 1 "b") [sampleTab 2 2 "a"]
    [{ movingIds := [1], index := 2 }] { movingIds := [1], index := 2 }
    rfl (by decide) (by decide) (by decide) (by decide)
